import Mathlib

/-
Verification of the diff-driven review pipeline of the Vibe-PR-Reviewer
repository.  The Python sources are shallowly embedded: strings are
`List Char`, dictionaries are structures, awaited collaborator calls are
explicit `Except`-valued oracles passed as arguments, and the regular
expressions of `utils/diff_parser.py` are modelled by executable matching
functions with the same backtracking semantics.  Lines of text are the
pieces produced by splitting on the newline character, mirroring
`str.splitlines` on ASCII input.
-/

abbrev Line := List Char

/-- `str.splitlines` helper: split a character list at every newline,
keeping empty pieces. -/
def splitOnNL : Line → List Line
  | [] => [[]]
  | c :: rest =>
    if c = '\n' then [] :: splitOnNL rest
    else
      match splitOnNL rest with
      | [] => [[c]]
      | h :: t => (c :: h) :: t

/-- Python `str.splitlines`: empty string gives `[]`, a trailing newline
does not produce a final empty line. -/
def splitLinesL (cs : Line) : List Line :=
  if cs = [] then []
  else
    let parts := splitOnNL cs
    if parts.getLast? = some [] then parts.dropLast else parts

/-- Python `"\n".join`. -/
def joinNL (ls : List Line) : Line :=
  List.intercalate ['\n'] ls

/-- The literal `diff --git a/` that the file-header regex
`^diff --git a/(.+) b/(.+)$` must see first. -/
def aMark : Line := "diff --git a/".toList

/-- The literal `diff --git` tested by `line.startswith("diff --git")`. -/
def dgMark : Line := "diff --git".toList

/-- The literal ` b/` separating the two capture groups of the
file-header regex. -/
def bMark : Line := [' ', 'b', '/']

/-- `line.startswith("diff --git")`. -/
def beginsDiffGit (l : Line) : Bool := dgMark.isPrefixOf l

/-- Rightmost decomposition `l = g1 ++ " b/" ++ g2` with `g2` nonempty,
mirroring the greedy backtracking of `(.+) b/(.+)$`: the first group takes
as many characters as possible. -/
def bSplitAux : Line → Option (Line × Line)
  | [] => none
  | c :: rest =>
    match bSplitAux rest with
    | some (g1, g2) => some (c :: g1, g2)
    | none =>
      if bMark.isPrefixOf (c :: rest) && !(rest.drop 2).isEmpty then
        some ([], rest.drop 2)
      else none

/-- `file_header_pattern.match(line)`, returning group 2 (the `b/` path):
the line must be exactly `diff --git a/<g1> b/<g2>` with `<g1>`, `<g2>`
nonempty, `<g2>` being the part after the last viable ` b/`. -/
def fileHeaderMatch (l : Line) : Option Line :=
  if aMark.isPrefixOf l then
    match bSplitAux (l.drop aMark.length) with
    | some (g1, g2) => if g1 = [] then none else some g2
    | none => none
  else none

/-- Greedy `\d+` starting at the head of the list; `none` when the head is
not a digit. -/
def parseDigitsAux : Line → Nat → Nat × Line
  | [], acc => (acc, [])
  | c :: rest, acc =>
    if c.isDigit then parseDigitsAux rest (acc * 10 + (c.toNat - 48))
    else (acc, c :: rest)

/-- `\d+` with its decimal value and the remaining characters. -/
def parseDigits : Line → Option (Nat × Line)
  | [] => none
  | c :: rest =>
    if c.isDigit then some (parseDigitsAux (c :: rest) 0) else none

/-- The optional `(?:,\d+)?` group: consume `,` followed by digits if
present, otherwise leave the input unchanged. -/
def skipOptCount (l : Line) : Line :=
  match l with
  | ',' :: rest =>
    match parseDigits rest with
    | some (_, rest2) => rest2
    | none => l
  | _ => l

/-- `hunk_header_pattern.match(line)` for
`^@@ -(\d+)(?:,\d+)? \+(\d+)(?:,\d+)? @@`: source and target start lines;
trailing text after the closing `@@` is allowed. -/
def hunkMatch (l : Line) : Option (Nat × Nat) :=
  if ("@@ -".toList).isPrefixOf l then
    match parseDigits (l.drop 4) with
    | none => none
    | some (src, r1) =>
      match skipOptCount r1 with
      | ' ' :: '+' :: r3 =>
        match parseDigits r3 with
        | none => none
        | some (tgt, r4) =>
          if (" @@".toList).isPrefixOf (skipOptCount r4) then some (src, tgt)
          else none
      | _ => none
  else none

structure Hunk where
  source_start_line : Nat
  target_start_line : Nat
  lines : List Line
deriving DecidableEq

/-- The in-progress `current_file` dictionary of `parse_diff`. -/
structure FileState where
  file_path : Line
  diffLines : List Line
  hunks : List Hunk
deriving DecidableEq

/-- A finished entry of the list returned by `parse_diff`, after the
final pass that joins the diff lines. -/
structure FileDiff where
  file_path : Line
  diff : Line
  hunks : List Hunk
deriving DecidableEq

/-- `current_file["hunks"][-1]["lines"].append(line)`. -/
def appendToLastHunk (hs : List Hunk) (l : Line) : List Hunk :=
  match hs with
  | [] => []
  | [h] => [{ h with lines := h.lines ++ [l] }]
  | h :: rest => h :: appendToLastHunk rest l

/-- The body of `parse_diff`'s `elif current_file:` branch for one line:
a hunk header opens a new hunk, otherwise the line joins the last hunk
when one exists, else only the file's diff text. -/
def processFileLine (f : FileState) (l : Line) : FileState :=
  match hunkMatch l with
  | some (src, tgt) =>
    { f with hunks := f.hunks ++ [⟨src, tgt, []⟩], diffLines := f.diffLines ++ [l] }
  | none =>
    if f.hunks = [] then { f with diffLines := f.diffLines ++ [l] }
    else { f with hunks := appendToLastHunk f.hunks l, diffLines := f.diffLines ++ [l] }

/-- `files.append(current_file)` when a section closes. -/
def closeCur (cur : Option FileState) (acc : List FileState) : List FileState :=
  match cur with
  | some f => acc ++ [f]
  | none => acc

/-- The scanning loop of `parse_diff`.  The `Bool` is the "skip the next
line" state created by the extra `i += 1` after a file header (the code
believes that line is part of the header and drops it).  A line starting
with `diff --git` that does not fully match the header pattern closes the
current section without opening a new one. -/
def parseLoop : List Line → Bool → Option FileState → List FileState → List FileState
  | [], _, cur, acc => closeCur cur acc
  | _ :: rest, true, cur, acc => parseLoop rest false cur acc
  | l :: rest, false, cur, acc =>
    match fileHeaderMatch l with
    | some p => parseLoop rest true (some ⟨p, [], []⟩) (closeCur cur acc)
    | none =>
      match cur with
      | some f =>
        if beginsDiffGit l then parseLoop rest false none (acc ++ [f])
        else parseLoop rest false (some (processFileLine f l)) acc
      | none => parseLoop rest false none acc

/-- The final pass of `parse_diff`: a file without hunks gets empty diff
text, otherwise its retained lines are joined with newlines. -/
def finishFile (f : FileState) : FileDiff :=
  { file_path := f.file_path
    diff := if f.hunks = [] then [] else joinNL f.diffLines
    hunks := f.hunks }

/-- `parse_diff` on a character list. -/
def parseL (cs : Line) : List FileDiff :=
  (parseLoop (splitLinesL cs) false none []).map finishFile

/-- The raw file-section list before the final join. -/
def parseStates (s : String) : List FileState :=
  parseLoop (splitLinesL s.toList) false none []

/-- `utils/diff_parser.py:parse_diff`. -/
def parse_diff (s : String) : List FileDiff :=
  parseL s.toList

/-- Python whitespace for `str.strip` / `str.split()` (ASCII fragment). -/
def isPySpace (c : Char) : Bool :=
  c = ' ' || c = '\t' || c = '\n' || c = '\r' || c = '\x0b' || c = '\x0c'

/-- `str.strip()`. -/
def strip (l : Line) : Line :=
  ((l.dropWhile isPySpace).reverse.dropWhile isPySpace).reverse

/-- Helper for `str.split()`: accumulate the current token (reversed). -/
def splitWSAux : Line → Line → List Line
  | [], tok => if tok = [] then [] else [tok.reverse]
  | c :: rest, tok =>
    if isPySpace c then
      if tok = [] then splitWSAux rest [] else tok.reverse :: splitWSAux rest []
    else splitWSAux rest (c :: tok)

/-- `str.split()` with no arguments: split on whitespace runs, no empty
tokens. -/
def splitWS (l : Line) : List Line := splitWSAux l []

/-- `" ".join`. -/
def joinSpace (ls : List Line) : Line := List.intercalate [' '] ls

/-- `str.find(needle)`: index of the first occurrence, `none` when the
needle does not occur (Python returns -1). -/
def firstOccur (needle hay : Line) : Option Nat :=
  match hay with
  | [] => if needle = [] then some 0 else none
  | _ :: t =>
    if needle.isPrefixOf hay then some 0
    else (firstOccur needle t).map (· + 1)

/-- `utils/command_parser.py:BOT_MENTION`. -/
def BOT : Line := "@pr-review-bot".toList

/-- One iteration of the line loop of `parse_comment`: if the mention
occurs in the line, split the stripped text after its first occurrence;
a line with no token after the mention yields nothing and scanning
continues. -/
def scanLines : List Line → Option (Line × Line)
  | [] => none
  | l :: rest =>
    match firstOccur BOT l with
    | some i =>
      match splitWS (strip (l.drop (i + BOT.length))) with
      | [] => scanLines rest
      | c :: args => some (c, joinSpace args)
    | none => scanLines rest

/-- Declarative form of one line's contribution, used to state that the
loop returns the first command-bearing line top to bottom. -/
def lineCommand (l : Line) : Option (Line × Line) :=
  match firstOccur BOT l with
  | some i =>
    match splitWS (strip (l.drop (i + BOT.length))) with
    | [] => none
    | c :: args => some (c, joinSpace args)
  | none => none

/-- `utils/command_parser.py:parse_comment`. -/
def parse_comment (body : Line) : Option (Line × Line) :=
  if body = [] || (firstOccur BOT body).isNone then none
  else scanLines (splitLinesL (strip body))

/-- The fields of a `pull_request` webhook payload read by
`handle_webhook_event` (the `draft` flag is carried by every real payload
but the handler never reads it). -/
structure PRPayload where
  action : Line
  repo_full_name : Line
  number : Nat
  head_sha : Line
  draft : Bool
deriving DecidableEq

/-- A started review: the arguments passed to `review_pull_request`. -/
structure ReviewTrigger where
  repo_full_name : Line
  number : Nat
  head_sha : Line
deriving DecidableEq

/-- The `pull_request` branch of
`services/webhook_service.py:handle_webhook_event`: `some` means a review
is started with these arguments, `none` means the event is ignored. -/
def handle_webhook_event (event_type : Line) (p : PRPayload) : Option ReviewTrigger :=
  if event_type = "pull_request".toList then
    if ["opened".toList, "synchronize".toList, "reopened".toList].contains p.action then
      some ⟨p.repo_full_name, p.number, p.head_sha⟩
    else none
  else none

/-- `core/repo_config.py:RepoConfig`. -/
structure RepoConfig where
  exclude_paths : List Line := []
  include_paths : List Line := []
  review_language : Line := "english".toList
  custom_prompt : Option Line := none
deriving DecidableEq

/-- `config.exclude_paths and any(file_path.startswith(p) for p in
config.exclude_paths)`. -/
def pathExcluded (cfg : RepoConfig) (path : Line) : Bool :=
  !cfg.exclude_paths.isEmpty && cfg.exclude_paths.any (fun p => p.isPrefixOf path)

/-- `config.include_paths and not any(file_path.startswith(p) for p in
config.include_paths)`. -/
def pathNotIncluded (cfg : RepoConfig) (path : Line) : Bool :=
  !cfg.include_paths.isEmpty && !(cfg.include_paths.any (fun p => p.isPrefixOf path))

/-- The generative-model collaborator: given file diff, filename, custom
prompt and output language, it returns the review text or raises. -/
abbrev AIOracle := Line → Line → Option Line → Line → Except Line Line

/-- The string returned by `generate_review_comment`'s `except` branch. -/
def aiFailureBody (filename e : Line) : Line :=
  "[AI Review Failed for ".toList ++ filename ++ ": ".toList ++ e ++ "]".toList

/-- `services/ai_service.py:generate_review_comment`: the model call is
wrapped in `try/except`; on failure a fallback message naming the file is
returned instead of raising. -/
def generate_review_comment (ai : AIOracle) (file_diff filename : Line)
    (custom_prompt : Option Line) (output_language : Line) : Line :=
  match ai file_diff filename custom_prompt output_language with
  | .ok t => t
  | .error e => aiFailureBody filename e

/-- Index of the first line starting with `+` or `-` in a hunk's line
list, counting from `i`. -/
def firstChangedIdx : List Line → Nat → Option Nat
  | [], _ => none
  | l :: rest, i =>
    if ("+".toList).isPrefixOf l || ("-".toList).isPrefixOf l then some i
    else firstChangedIdx rest (i + 1)

/-- The position search of `review_pull_request` (lines 46-58): scan hunks
in order, take the first changed line, and compute
`position = hunk["target_start_line"] + line_idx`. -/
def findPosition : List Hunk → Option Nat
  | [] => none
  | h :: rest =>
    match firstChangedIdx h.lines 0 with
    | some i => some (h.target_start_line + i)
    | none => findPosition rest

/-- Modelled from the spec (section 4.2 Comment Position Mapper): the
position is the 1-based count of diff lines within the hunk, 1 being the
hunk's first content line after the `@@` header; the chosen line is the
first line across the hunks whose prefix is `+` or `-`. -/
def specPosition : List Hunk → Option Nat
  | [] => none
  | h :: rest =>
    match firstChangedIdx h.lines 0 with
    | some i => some (i + 1)
    | none => specPosition rest

/-- One entry of `comments_to_post`. -/
structure ReviewComment where
  path : Line
  position : Nat
  body : Line
deriving DecidableEq

/-- The sentinel `"No issues found."`. -/
def sentinel : Line := "No issues found.".toList

/-- The per-file loop of `review_pull_request`: returns the comments to
post and, as instrumentation, the list of filenames for which the model
was invoked (one entry per `generate_review_comment` call). -/
def processFiles (ai : AIOracle) (cfg : RepoConfig) :
    List FileDiff → List ReviewComment × List Line
  | [] => ([], [])
  | fc :: rest =>
    if pathExcluded cfg fc.file_path then processFiles ai cfg rest
    else if pathNotIncluded cfg fc.file_path then processFiles ai cfg rest
    else
      let body := generate_review_comment ai fc.diff fc.file_path
        cfg.custom_prompt cfg.review_language
      let next := processFiles ai cfg rest
      match findPosition fc.hunks with
      | some pos =>
        if body ≠ [] ∧ body ≠ sentinel then
          (⟨fc.file_path, pos, body⟩ :: next.1, fc.file_path :: next.2)
        else (next.1, fc.file_path :: next.2)
      | none => (next.1, fc.file_path :: next.2)

/-- Whether and how `post_review` was reached during a run. -/
inductive SubmitStatus where
  | notSubmitted : SubmitStatus
  | submitFailed : List ReviewComment → SubmitStatus
  | submitted : List ReviewComment → SubmitStatus
deriving DecidableEq

/-- The outcome of one orchestration run: the submission state and the
error captured by the surrounding `except Exception` block, if any.  The
coroutine itself always returns normally, which the total return type
reflects. -/
structure RunResult where
  status : SubmitStatus
  caughtError : Option Line
deriving DecidableEq

/-- `services/review_service.py:review_pull_request`.  The collaborators
`get_pr_diff` and `post_review` are passed as `Except`-valued arguments;
an `.error` from either is what the `except Exception` block catches and
logs.  `generate_review_comment` never raises (it catches internally) and
`parse_diff` is total, so those steps introduce no error. -/
def review_pull_request (getDiff : Except Line Line) (ai : AIOracle)
    (post : List ReviewComment → Except Line Unit) (cfg : RepoConfig) : RunResult :=
  match getDiff with
  | .error e => ⟨.notSubmitted, some e⟩
  | .ok pr_diff =>
    if pr_diff = [] then ⟨.notSubmitted, none⟩
    else
      let comments := (processFiles ai cfg (parseL pr_diff)).1
      if comments = [] then ⟨.notSubmitted, none⟩
      else
        match post comments with
        | .ok _ => ⟨.submitted comments, none⟩
        | .error e => ⟨.submitFailed comments, some e⟩

/-- The `b/`-side paths of the lines matching the file-header pattern, in
source order. -/
def headerPaths (ls : List Line) : List Line := ls.filterMap fileHeaderMatch

/-- The head of the list, if any, does not begin with `diff --git`. -/
def headClear : List Line → Bool
  | [] => true
  | l :: _ => !(beginsDiffGit l)

/-- Well-formedness of a line list for header counting: every line
beginning with `diff --git` matches the full header pattern, and no line
beginning with `diff --git` immediately follows a header-matching line
(the parser drops the line after each header). -/
def goodLines : List Line → Bool
  | [] => true
  | l :: rest =>
    ((!(beginsDiffGit l) || (fileHeaderMatch l).isSome)
      && ((!(fileHeaderMatch l).isSome) || headClear rest))
      && goodLines rest

/-- A closed file section can be re-derived from its own retained lines:
replaying `diffLines` from a fresh state rebuilds the same section, and
none of the retained lines is a file header. -/
def selfReplay (f : FileState) : Prop :=
  f.diffLines.foldl processFileLine ⟨f.file_path, [], []⟩ = f
    ∧ ∀ l ∈ f.diffLines, fileHeaderMatch l = none ∧ beginsDiffGit l = false

/-! ## Claim theorems -/

/-- Input exhibiting the position computation: one file, one hunk starting
at target line 10, first changed line at hunk index 1. -/
def c1Input : String :=
  "diff --git a/f.py b/f.py\nindex 1..2\n--- a/f.py\n+++ b/f.py\n@@ -10,2 +10,2 @@\n ctx\n+x"

/-- Two fully matching headers on adjacent lines: the second is consumed
by the skip that follows the first header. -/
def c4InputA : String := "diff --git a/x b/y\ndiff --git a/p b/q"

/-- A line that begins with `diff --git` but does not match the full
header pattern. -/
def c4InputB : String := "diff --git oops"

/-- A well-formed two-file diff for the C4 witness. -/
def c4WitnessInput : String :=
  "diff --git a/file1.py b/file1.py\nindex 1..2\n--- a/file1.py\n+++ b/file1.py\n@@ -1,1 +1,2 @@\n old\n+new\ndiff --git a/file2.js b/file2.js\nindex 3..4\n--- a/file2.js\n+++ b/file2.js\n@@ -1 +1 @@\n-c\n+d"

/-- A file section whose metadata block has three lines between the
header and the first hunk header. -/
def c5Input : String :=
  "diff --git a/x b/y\nindex 1..2\n--- a/x\n+++ b/y\n@@ -1 +1 @@\n+z"

/-- Witness data for `c7_amended`. -/
def c5Hdr : Line := "diff --git a/x b/y".toList

/-- The already-open first file section of `c4WitnessInput` at the moment
the scanner reaches the second `diff --git` header; used to witness
`c5_amended` at a non-initial file section. -/
def c5WitnessPrior : FileState :=
  { file_path := "file1.py".toList
    diffLines := ["--- a/file1.py".toList, "+++ b/file1.py".toList,
      "@@ -1,1 +1,2 @@".toList, " old".toList, "+new".toList]
    hunks := [⟨1, 1, [" old".toList, "+new".toList]⟩] }

/-- The second file header of `c4WitnessInput`. -/
def c5Hdr2 : Line := "diff --git a/file2.js b/file2.js".toList

/-- The repository's own deletion-diff test input: the hunk header
`@@ -1,3 +0,0 @@` has target start 0. -/
def c6Input : String :=
  "diff --git a/d.txt b/d.txt\ndeleted file mode 100644\n--- a/d.txt\n+++ /dev/null\n@@ -1,3 +0,0 @@\n-line 1\n-line 2\n-line 3"

/-- The (unique) file produced from `c5Input`. -/
def c6WitnessFile : FileDiff :=
  { file_path := "y".toList
    diff := "--- a/x\n+++ b/y\n@@ -1 +1 @@\n+z".toList
    hunks := [⟨1, 1, ["+z".toList]⟩] }

/-- A complete one-file diff for the C7 counterexample. -/
def c7Input : String := "diff --git a/x b/y\n--- a/x\n+++ b/y\n@@ -1 +1 @@\n+z"

/-- The single file section parsed from `c5Input`. -/
def c7WitnessState : FileState :=
  { file_path := "y".toList
    diffLines := ["--- a/x".toList, "+++ b/y".toList, "@@ -1 +1 @@".toList, "+z".toList]
    hunks := [⟨1, 1, ["+z".toList]⟩] }

/-- A trivially succeeding model oracle for witnesses. -/
def okOracle : AIOracle := fun _ _ _ _ => .ok "Looks fine to me".toList

/-- The configuration of the spec's prompt-assembler example. -/
def c9Config : RepoConfig :=
  { exclude_paths := ["src/docs".toList]
    include_paths := ["src".toList] }

/-- The excluded file of the spec's prompt-assembler example. -/
def c9File : FileDiff :=
  { file_path := "src/docs/readme.md".toList
    diff := "+hello".toList
    hunks := [⟨1, 1, ["+hello".toList]⟩] }

/-- A one-file diff whose hunk's first changed line is at index 0. -/
def c3Input : String :=
  "diff --git a/a.py b/a.py\nindex 1..2\n--- a/a.py\n+++ b/a.py\n@@ -1 +1 @@\n+x"

/-- The parsed form of `c3Input`'s single file. -/
def c3File : FileDiff :=
  { file_path := "a.py".toList
    diff := "--- a/a.py\n+++ b/a.py\n@@ -1 +1 @@\n+x".toList
    hunks := [⟨1, 1, ["+x".toList]⟩] }

/-- A model oracle that always fails. -/
def failOracle : AIOracle := fun _ _ _ _ => .error "boom".toList

/-! ## Helper lemmas about the scanning loop -/

lemma prefTrans {a b c : Line} (h1 : a.isPrefixOf b = true) (h2 : b.isPrefixOf c = true) :
    a.isPrefixOf c = true := by
  rw [ List.isPrefixOf_iff_prefix] at h1 h2 ⊢
  exact h1.trans h2

lemma fm_begins {l : Line} (h : (fileHeaderMatch l).isSome) : beginsDiffGit l = true := by
  unfold fileHeaderMatch at h
  by_cases hp : aMark.isPrefixOf l
  · exact prefTrans (by decide) hp
  · simp [hp] at h

lemma fm_none_of_not_begins {l : Line} (h : beginsDiffGit l = false) :
    fileHeaderMatch l = none := by
  cases hm : fileHeaderMatch l with
  | none => rfl
  | some p =>
    have hb : beginsDiffGit l = true := fm_begins (by rw [hm]; rfl)
    rw [hb] at h
    cases h

lemma processFileLine_path (f : FileState) (l : Line) :
    (processFileLine f l).file_path = f.file_path := by
  unfold processFileLine
  cases hunkMatch l with
  | some st => rfl
  | none => by_cases h : f.hunks = [] <;> simp [h]

lemma processFileLine_diffLines (f : FileState) (l : Line) :
    (processFileLine f l).diffLines = f.diffLines ++ [l] := by
  unfold processFileLine
  cases hunkMatch l with
  | some st => rfl
  | none => by_cases h : f.hunks = [] <;> simp [h]

lemma closeCur_map_path (cur : Option FileState) (acc : List FileState) :
    (closeCur cur acc).map FileState.file_path
      = acc.map FileState.file_path
        ++ (match cur with | some f => [f.file_path] | none => []) := by
  cases cur <;> simp [closeCur]

lemma parseLoop_acc : ∀ (ls : List Line) (skip : Bool) (cur : Option FileState)
    (acc : List FileState),
    parseLoop ls skip cur acc = acc ++ parseLoop ls skip cur [] := by
  intro ls
  induction ls with
  | nil => intro skip cur acc; cases cur <;> simp [parseLoop, closeCur]
  | cons l rest ih =>
    intro skip cur acc
    cases skip with
    | true => simpa [parseLoop] using ih false cur acc
    | false =>
      simp only [parseLoop]
      cases hm : fileHeaderMatch l with
      | some p =>
        dsimp only
        rw [ih true _ (closeCur cur acc), ih true _ (closeCur cur [])]
        cases cur <;> simp [closeCur]
      | none =>
        dsimp only
        cases cur with
        | some f =>
          by_cases hb : beginsDiffGit l
          · simp only [hb, if_pos]
            rw [ih false none (acc ++ [f]), ih false none ([] ++ [f])]
            simp
          · simp only [hb, Bool.false_eq_true, if_false]
            exact ih false _ acc
        | none => exact ih false none acc

lemma parseLoop_paths : ∀ (ls : List Line) (skip : Bool) (cur : Option FileState)
    (acc : List FileState),
    goodLines ls = true → (skip = true → headClear ls = true) →
    (parseLoop ls skip cur acc).map FileState.file_path
      = acc.map FileState.file_path
        ++ (match cur with | some f => [f.file_path] | none => [])
        ++ headerPaths ls := by
  intro ls
  induction ls with
  | nil =>
    intro skip cur acc _ _
    cases cur <;> simp [parseLoop, closeCur, headerPaths]
  | cons l rest ih =>
    intro skip cur acc hg hsk
    simp only [goodLines, Bool.and_eq_true] at hg
    obtain ⟨⟨g1, g2⟩, g3⟩ := hg
    cases skip with
    | true =>
      have hhc : headClear (l :: rest) = true := hsk rfl
      simp only [headClear] at hhc
      have hbg : beginsDiffGit l = false := by
        cases hb : beginsDiffGit l
        · rfl
        · rw [hb] at hhc; cases hhc
      have hfm : fileHeaderMatch l = none := fm_none_of_not_begins hbg
      simp only [parseLoop]
      rw [ih false cur acc g3 (fun h => Bool.noConfusion h)]
      simp [headerPaths, hfm]
    | false =>
      simp only [parseLoop]
      cases hm : fileHeaderMatch l with
      | some p =>
        dsimp only
        have g2' : headClear rest = true := by
          rw [hm] at g2; simpa using g2
        rw [ih true (some ⟨p, [], []⟩) (closeCur cur acc) g3 (fun _ => g2')]
        rw [closeCur_map_path]
        simp [headerPaths, hm, List.filterMap_cons]
      | none =>
        dsimp only
        cases cur with
        | some f =>
          have hbg : beginsDiffGit l = false := by
            cases hb : beginsDiffGit l
            · rfl
            · rw [hb, hm] at g1; simp at g1
          simp only [hbg, Bool.false_eq_true, if_false]
          rw [ih false (some (processFileLine f l)) acc g3 (fun h => Bool.noConfusion h)]
          simp [headerPaths, hm, processFileLine_path]
        | none =>
          rw [ih false none acc g3 (fun h => Bool.noConfusion h)]
          simp [headerPaths, hm]

lemma appendToLastHunk_sub {hs : List Hunk} {U : List Line} {l : Line}
    (hh : ∀ h ∈ hs, h.lines.Sublist U) :
    ∀ h ∈ appendToLastHunk hs l, h.lines.Sublist (U ++ [l]) := by
  induction hs with
  | nil => intro h hm; cases hm
  | cons h0 t ih =>
    cases t with
    | nil =>
      intro h hm
      simp only [appendToLastHunk, List.mem_singleton] at hm
      subst hm
      exact (hh h0 (List.mem_singleton_self h0)).append (List.Sublist.refl [l])
    | cons h1 t1 =>
      intro h hm
      rw [show appendToLastHunk (h0 :: h1 :: t1) l
            = h0 :: appendToLastHunk (h1 :: t1) l from rfl] at hm
      rcases List.mem_cons.mp hm with hm | hm
      · subst hm
        exact (hh h (List.mem_cons_self _ _)).trans (List.sublist_append_left U [l])
      · exact ih (fun h2 hm2 => hh h2 (List.mem_cons_of_mem _ hm2)) h hm

lemma parseLoop_hunks_sub : ∀ (ls : List Line) (skip : Bool) (cur : Option FileState)
    (acc : List FileState) (U : List Line),
    (∀ f, cur = some f → ∀ h ∈ f.hunks, h.lines.Sublist U) →
    ∀ g ∈ parseLoop ls skip cur acc,
      g ∈ acc ∨ ∀ h ∈ g.hunks, h.lines.Sublist (U ++ ls) := by
  intro ls
  induction ls with
  | nil =>
    intro skip cur acc U hcur g hg
    cases cur with
    | none => exact Or.inl hg
    | some f =>
      simp only [parseLoop, closeCur] at hg
      rcases List.mem_append.mp hg with hg | hg
      · exact Or.inl hg
      · right
        rw [List.mem_singleton] at hg
        subst hg
        intro h hh
        simpa using hcur g rfl h hh
  | cons l rest ih =>
    intro skip cur acc U hcur g hg
    have hUl : ∀ (xs : List Line), (U ++ [l]) ++ xs = U ++ (l :: xs) := by
      intro xs; simp
    cases skip with
    | true =>
      simp only [parseLoop] at hg
      have hcur' : ∀ f, cur = some f → ∀ h ∈ f.hunks, h.lines.Sublist (U ++ [l]) :=
        fun f hf h hh => (hcur f hf h hh).trans (List.sublist_append_left U [l])
      rcases ih false cur acc (U ++ [l]) hcur' g hg with hmem | hsub
      · exact Or.inl hmem
      · right; rw [hUl rest] at hsub; exact hsub
    | false =>
      simp only [parseLoop] at hg
      cases hm : fileHeaderMatch l with
      | some p =>
        rw [hm] at hg
        dsimp only at hg
        have hfresh : ∀ f, (some (⟨p, [], []⟩ : FileState)) = some f →
            ∀ h ∈ f.hunks, h.lines.Sublist (U ++ [l]) := by
          intro f hf h hh
          cases hf
          cases hh
        rcases ih true (some ⟨p, [], []⟩) (closeCur cur acc) (U ++ [l]) hfresh g hg
          with hmem | hsub
        · cases cur with
          | none => exact Or.inl hmem
          | some f0 =>
            simp only [closeCur] at hmem
            rcases List.mem_append.mp hmem with hmem | hmem
            · exact Or.inl hmem
            · right
              rw [List.mem_singleton] at hmem
              subst hmem
              intro h hh
              exact (hcur g rfl h hh).trans (List.sublist_append_left U (l :: rest))
        · right; rw [hUl rest] at hsub; exact hsub
      | none =>
        rw [hm] at hg
        dsimp only at hg
        cases cur with
        | some f =>
          by_cases hb : beginsDiffGit l
          · simp only [hb, if_pos] at hg
            rcases ih false none (acc ++ [f]) (U ++ [l]) (fun f0 hf0 => by cases hf0) g hg
              with hmem | hsub
            · rcases List.mem_append.mp hmem with hmem | hmem
              · exact Or.inl hmem
              · right
                rw [List.mem_singleton] at hmem
                subst hmem
                intro h hh
                exact (hcur g rfl h hh).trans (List.sublist_append_left U (l :: rest))
            · right; rw [hUl rest] at hsub; exact hsub
          · simp only [hb, Bool.false_eq_true, if_false] at hg
            have hpfl : ∀ f0, some (processFileLine f l) = some f0 →
                ∀ h ∈ f0.hunks, h.lines.Sublist (U ++ [l]) := by
              intro f0 hf0 h hh
              injection hf0 with hf0
              subst hf0
              unfold processFileLine at hh
              cases hmk : hunkMatch l with
              | some st =>
                rw [hmk] at hh
                dsimp only at hh
                rcases List.mem_append.mp hh with hh | hh
                · exact (hcur f rfl h hh).trans (List.sublist_append_left U [l])
                · rw [List.mem_singleton] at hh
                  subst hh
                  exact List.nil_sublist _
              | none =>
                rw [hmk] at hh
                dsimp only at hh
                by_cases hhs : f.hunks = []
                · simp only [hhs, if_pos] at hh
                  exact absurd hh (List.not_mem_nil h)
                · simp only [hhs, if_neg, if_false] at hh
                  exact appendToLastHunk_sub (hcur f rfl) h hh
            rcases ih false (some (processFileLine f l)) acc (U ++ [l]) hpfl g hg
              with hmem | hsub
            · exact Or.inl hmem
            · right; rw [hUl rest] at hsub; exact hsub
        | none =>
          rcases ih false none acc (U ++ [l]) (fun f0 hf0 => by cases hf0) g hg
            with hmem | hsub
          · exact Or.inl hmem
          · right; rw [hUl rest] at hsub; exact hsub

lemma parseLoop_metas : ∀ (metas : List Line) (p : Line) (ds rest : List Line)
    (acc : List FileState),
    (∀ l ∈ metas, hunkMatch l = none ∧ beginsDiffGit l = false) →
    parseLoop (metas ++ rest) false (some ⟨p, ds, []⟩) acc
      = parseLoop rest false (some ⟨p, ds ++ metas, []⟩) acc := by
  intro metas
  induction metas with
  | nil => intro p ds rest acc _; simp
  | cons m t ih =>
    intro p ds rest acc hm
    obtain ⟨hmk, hbg⟩ := hm m (List.mem_cons_self _ _)
    have hfm : fileHeaderMatch m = none := fm_none_of_not_begins hbg
    have hstep : processFileLine ⟨p, ds, []⟩ m = ⟨p, ds ++ [m], []⟩ := by
      unfold processFileLine
      rw [hmk]
      simp
    simp only [List.cons_append, parseLoop, hfm]
    rw [hbg]
    simp only [Bool.false_eq_true, if_false]
    rw [hstep, List.append_eq,
      ih p (ds ++ [m]) rest acc (fun l hl => hm l (List.mem_cons_of_mem _ hl))]
    simp

lemma parseLoop_firstFile : ∀ (ls : List Line) (skip : Bool) (p : Line) (ds : List Line)
    (hs : List Hunk) (acc : List FileState),
    ∃ ds2 hs2 tail,
      parseLoop ls skip (some ⟨p, ds, hs⟩) acc = acc ++ ⟨p, ds ++ ds2, hs2⟩ :: tail := by
  intro ls
  induction ls with
  | nil =>
    intro skip p ds hs acc
    exact ⟨[], hs, [], by simp [parseLoop, closeCur]⟩
  | cons l rest ih =>
    intro skip p ds hs acc
    cases skip with
    | true =>
      obtain ⟨ds2, hs2, tail, heq⟩ := ih false p ds hs acc
      exact ⟨ds2, hs2, tail, by simpa [parseLoop] using heq⟩
    | false =>
      simp only [parseLoop]
      cases hm : fileHeaderMatch l with
      | some q =>
        dsimp only
        refine ⟨[], hs, parseLoop rest true (some ⟨q, [], []⟩) [], ?_⟩
        rw [parseLoop_acc rest true (some ⟨q, [], []⟩) (closeCur (some ⟨p, ds, hs⟩) acc)]
        simp [closeCur]
      | none =>
        dsimp only
        by_cases hb : beginsDiffGit l
        · simp only [hb, if_pos]
          refine ⟨[], hs, parseLoop rest false none [], ?_⟩
          rw [parseLoop_acc]
          simp
        · simp only [hb, Bool.false_eq_true, if_false]
          unfold processFileLine
          cases hmk : hunkMatch l with
          | some st =>
            dsimp only
            obtain ⟨ds2, hs2, tail, heq⟩ :=
              ih false p (ds ++ [l]) (hs ++ [⟨st.1, st.2, []⟩]) acc
            exact ⟨[l] ++ ds2, hs2, tail, by simpa using heq⟩
          | none =>
            dsimp only
            by_cases hhs : hs = []
            · simp only [hhs, if_pos]
              obtain ⟨ds2, hs2, tail, heq⟩ := ih false p (ds ++ [l]) ([] : List Hunk) acc
              refine ⟨[l] ++ ds2, hs2, tail, ?_⟩
              subst hhs
              simpa using heq
            · simp only [hhs, if_neg, if_false]
              obtain ⟨ds2, hs2, tail, heq⟩ :=
                ih false p (ds ++ [l]) (appendToLastHunk hs l) acc
              exact ⟨[l] ++ ds2, hs2, tail, by simpa using heq⟩

lemma selfReplay_step {f : FileState} {l : Line} (hf : selfReplay f)
    (hfm : fileHeaderMatch l = none) (hbg : beginsDiffGit l = false) :
    selfReplay (processFileLine f l) := by
  obtain ⟨hfold, hlines⟩ := hf
  constructor
  · rw [processFileLine_diffLines, processFileLine_path, List.foldl_append]
    simp [hfold]
  · intro x hx
    rw [processFileLine_diffLines] at hx
    rcases List.mem_append.mp hx with hx | hx
    · exact hlines x hx
    · rw [List.mem_singleton] at hx
      subst hx
      exact ⟨hfm, hbg⟩

lemma parseLoop_selfReplay : ∀ (ls : List Line) (skip : Bool) (cur : Option FileState)
    (acc : List FileState),
    (∀ f ∈ acc, selfReplay f) → (∀ f, cur = some f → selfReplay f) →
    ∀ g ∈ parseLoop ls skip cur acc, selfReplay g := by
  intro ls
  induction ls with
  | nil =>
    intro skip cur acc hacc hcur g hg
    cases cur with
    | none => exact hacc g hg
    | some f =>
      simp only [parseLoop, closeCur] at hg
      rcases List.mem_append.mp hg with hg | hg
      · exact hacc g hg
      · rw [List.mem_singleton] at hg
        subst hg
        exact hcur g rfl
  | cons l rest ih =>
    intro skip cur acc hacc hcur g hg
    cases skip with
    | true =>
      simp only [parseLoop] at hg
      exact ih false cur acc hacc hcur g hg
    | false =>
      simp only [parseLoop] at hg
      cases hm : fileHeaderMatch l with
      | some p =>
        rw [hm] at hg
        dsimp only at hg
        have hacc' : ∀ f ∈ closeCur cur acc, selfReplay f := by
          intro f hf
          cases cur with
          | none => exact hacc f hf
          | some f0 =>
            simp only [closeCur] at hf
            rcases List.mem_append.mp hf with hf | hf
            · exact hacc f hf
            · rw [List.mem_singleton] at hf
              subst hf
              exact hcur f rfl
        have hfresh : ∀ f, (some (⟨p, [], []⟩ : FileState)) = some f → selfReplay f := by
          intro f hf
          cases hf
          exact ⟨rfl, by intro x hx; cases hx⟩
        exact ih true (some ⟨p, [], []⟩) (closeCur cur acc) hacc' hfresh g hg
      | none =>
        rw [hm] at hg
        dsimp only at hg
        cases cur with
        | some f =>
          by_cases hb : beginsDiffGit l
          · simp only [hb, if_pos] at hg
            have hacc' : ∀ f0 ∈ acc ++ [f], selfReplay f0 := by
              intro f0 hf0
              rcases List.mem_append.mp hf0 with hf0 | hf0
              · exact hacc f0 hf0
              · rw [List.mem_singleton] at hf0
                subst hf0
                exact hcur f0 rfl
            exact ih false none (acc ++ [f]) hacc' (fun f0 hf0 => by cases hf0) g hg
          · simp only [hb, Bool.false_eq_true, if_false] at hg
            have hbg : beginsDiffGit l = false := by
              cases hbb : beginsDiffGit l
              · rfl
              · exact absurd hbb hb
            have hpfl : ∀ f0, some (processFileLine f l) = some f0 → selfReplay f0 := by
              intro f0 hf0
              injection hf0 with hf0
              subst hf0
              exact selfReplay_step (hcur f rfl) hm hbg
            exact ih false (some (processFileLine f l)) acc hacc hpfl g hg
        | none => exact ih false none acc hacc (fun f0 hf0 => by cases hf0) g hg

lemma parseLoop_replay : ∀ (ds : List Line) (f : FileState),
    (∀ l ∈ ds, fileHeaderMatch l = none ∧ beginsDiffGit l = false) →
    parseLoop ds false (some f) [] = [ds.foldl processFileLine f] := by
  intro ds
  induction ds with
  | nil => intro f _; simp [parseLoop, closeCur]
  | cons l t ih =>
    intro f hds
    obtain ⟨hfm, hbg⟩ := hds l (List.mem_cons_self _ _)
    simp only [parseLoop, hfm]
    rw [hbg]
    simp only [Bool.false_eq_true, if_false]
    rw [ih (processFileLine f l) (fun x hx => hds x (List.mem_cons_of_mem _ hx))]
    simp

lemma scanLines_findSome : ∀ ls : List Line, scanLines ls = ls.findSome? lineCommand := by
  intro ls
  induction ls with
  | nil => rfl
  | cons l rest ih =>
    simp only [scanLines, lineCommand, List.findSome?_cons]
    cases firstOccur BOT l with
    | none => exact ih
    | some i =>
      dsimp only
      cases splitWS (strip (l.drop (i + BOT.length))) with
      | nil => exact ih
      | cons c args => rfl

lemma aiFailureBody_props (f e : Line) :
    aiFailureBody f e ≠ [] ∧ aiFailureBody f e ≠ sentinel := by
  have hx : "[AI Review Failed for ".toList = '[' :: "AI Review Failed for".toList ++ [' '] := by
    decide
  constructor
  · intro h
    rw [aiFailureBody, hx] at h
    simp at h
  · intro h
    have hs : sentinel = 'N' :: "o issues found.".toList := by decide
    rw [aiFailureBody, hx, hs] at h
    simp only [List.cons_append, List.append_assoc] at h
    have := List.head_eq_of_cons_eq h
    exact absurd this (by decide)

/-- Claim C1 (code_bug evidence): the code's position search
(`review_pull_request` lines 46-58, modelled by `findPosition`) yields
`target_start_line + line_idx = 11` for a hunk starting at target line 10
whose first changed line has index 1, while the claimed convention (the
1-based count of diff lines within the hunk, modelled by `specPosition`)
yields 2.  The code's own comment states the hunk-relative convention but
computes with the file line number instead. -/
theorem c1_position_divergence :
    (parse_diff c1Input).map (fun fd => findPosition fd.hunks) = [some 11]
      ∧ (parse_diff c1Input).map (fun fd => specPosition fd.hunks) = [some 2] := by
  decide

/-- Claim C2 (code_bug evidence): the `pull_request` branch of
`handle_webhook_event` starts a review for an `opened` event even when
`draft = true`, and more generally its decision never depends on the
`draft` field; the claim (and `app.py`'s `should_process_event` in the
same repository) requires draft requests to be rejected. -/
theorem c2_draft_accepted :
    handle_webhook_event "pull_request".toList
        ⟨"opened".toList, "o/r".toList, 1, "abc".toList, true⟩
      = some ⟨"o/r".toList, 1, "abc".toList⟩
      ∧ ∀ p : PRPayload,
          handle_webhook_event "pull_request".toList p
            = handle_webhook_event "pull_request".toList
                ⟨p.action, p.repo_full_name, p.number, p.head_sha, true⟩ := by
  constructor
  · decide
  · intro p; rfl

/-- Claim C4 counterexample: an input with two lines beginning
`diff --git` yields one `FileDiff` (the parser skips the line after each
header), and an input whose single `diff --git` line does not match the
full `a/<old> b/<new>` pattern yields none. -/
theorem c4_counterexample :
    ((parse_diff c4InputA).length = 1
        ∧ ((splitLinesL c4InputA.toList).filter beginsDiffGit).length = 2)
      ∧ ((parse_diff c4InputB).length = 0
        ∧ ((splitLinesL c4InputB.toList).filter beginsDiffGit).length = 1) := by
  decide

/-- Claim C4 (amended): if every line beginning `diff --git` matches the
full header pattern and no such line immediately follows a
header-matching line, then `parse_diff` returns exactly one entry per
header, in source order, whose path is the header's `b/` side. -/
theorem c4_amended (s : String) (hg : goodLines (splitLinesL s.toList) = true) :
    (parse_diff s).map FileDiff.file_path = headerPaths (splitLinesL s.toList) := by
  have h := parseLoop_paths (splitLinesL s.toList) false none [] hg
    (fun h => Bool.noConfusion h)
  unfold parse_diff parseL
  rw [List.map_map]
  have hcomp : (FileDiff.file_path ∘ finishFile) = FileState.file_path := by
    funext f; rfl
  rw [hcomp]
  simpa using h

/-- Witness for `c4_amended` at a concrete two-file diff. -/
theorem c4_amended_witness :
    goodLines (splitLinesL c4WitnessInput.toList) = true
      ∧ (parse_diff c4WitnessInput).map FileDiff.file_path
          = headerPaths (splitLinesL c4WitnessInput.toList) :=
  ⟨by decide, c4_amended c4WitnessInput (by decide)⟩

/-- Claim C5 counterexample: the line `index 1..2` lies between the file's
`diff --git` header and its first hunk header, yet it does not appear in
the file's raw diff text — the parser unconditionally drops the line
immediately after each header. -/
theorem c5_counterexample :
    (splitLinesL c5Input.toList).get? 1 = some "index 1..2".toList
      ∧ (parse_diff c5Input).map
          (fun f => (splitLinesL f.diff).contains "index 1..2".toList) = [false]
      ∧ (parse_diff c5Input).map (fun f => f.hunks.length) = [1] := by
  decide

/-- Claim C5 (amended): at the start of every parsed file section —
whenever the scanner reaches a matching `diff --git` header with the
skip flag clear, whatever files were accumulated and whatever section
was open before — the line immediately after the header is dropped,
while every later line before the first hunk header is retained, in
order, at the front of that file's diff-line list; the file's hunks
draw their lines only from the input after the metadata block. -/
theorem c5_amended (hdr skipped p : Line) (metas rest : List Line)
    (cur : Option FileState) (acc : List FileState)
    (hhdr : fileHeaderMatch hdr = some p)
    (hmetas : ∀ l ∈ metas, hunkMatch l = none ∧ beginsDiffGit l = false) :
    ∃ ds2 hs2 tail,
      parseLoop (hdr :: skipped :: (metas ++ rest)) false cur acc
        = closeCur cur acc ++ ⟨p, metas ++ ds2, hs2⟩ :: tail
        ∧ ∀ h ∈ hs2, h.lines.Sublist rest := by
  simp only [parseLoop, hhdr]
  rw [parseLoop_metas metas p [] rest (closeCur cur acc) hmetas]
  rw [parseLoop_acc]
  obtain ⟨ds2, hs2, tail, heq⟩ := parseLoop_firstFile rest false p metas [] []
  refine ⟨ds2, hs2, tail, ?_, ?_⟩
  · simp only [List.nil_append]
    rw [heq]
    simp
  · intro h hh
    have hsub := parseLoop_hunks_sub rest false (some ⟨p, metas, []⟩) [] []
      (by
        intro f hf h' hh'
        injection hf with hf
        rw [← hf] at hh'
        cases hh')
      ⟨p, metas ++ ds2, hs2⟩
      (by rw [heq]; exact List.mem_cons_self _ _)
    rcases hsub with hmem | hsub
    · exact absurd hmem (List.not_mem_nil _)
    · simpa using hsub h hh

/-- Witness for `c5_amended` at the second file section of
`c4WitnessInput`, reached with the first file's section still open. -/
theorem c5_amended_witness :
    (fileHeaderMatch c5Hdr2 = some "file2.js".toList
      ∧ ∀ l ∈ ["--- a/file2.js".toList, "+++ b/file2.js".toList],
          hunkMatch l = none ∧ beginsDiffGit l = false)
      ∧ ∃ ds2 hs2 tail,
          parseLoop (c5Hdr2 :: "index 3..4".toList
              :: (["--- a/file2.js".toList, "+++ b/file2.js".toList]
                  ++ ["@@ -1 +1 @@".toList, "-c".toList, "+d".toList]))
            false (some c5WitnessPrior) []
            = closeCur (some c5WitnessPrior) []
                ++ ⟨"file2.js".toList,
                    ["--- a/file2.js".toList, "+++ b/file2.js".toList] ++ ds2,
                    hs2⟩ :: tail
            ∧ ∀ h ∈ hs2, h.lines.Sublist
                ["@@ -1 +1 @@".toList, "-c".toList, "+d".toList] :=
  ⟨⟨by decide, by decide⟩,
    c5_amended c5Hdr2 "index 3..4".toList "file2.js".toList
      ["--- a/file2.js".toList, "+++ b/file2.js".toList]
      ["@@ -1 +1 @@".toList, "-c".toList, "+d".toList]
      (some c5WitnessPrior) [] (by decide) (by decide)⟩

/-- Claim C6 counterexample: a deletion hunk parsed from the repository's
own test fixture has `target_start_line = 0`, violating the claimed
invariant `target_start_line ≥ 1`. -/
theorem c6_counterexample :
    ¬ (∀ fd ∈ parse_diff c6Input, ∀ h ∈ fd.hunks, 1 ≤ h.target_start_line) := by
  decide

/-- Claim C6 (amended): `target_start_line` is the number parsed from the
`@@` header and can be 0 (deletion hunks); the ordering half of the claim
holds: every hunk's line sequence is a subsequence of the input's lines,
so it preserves the original input ordering. -/
theorem c6_amended (s : String) (fd : FileDiff) (h : Hunk)
    (hf : fd ∈ parse_diff s) (hh : h ∈ fd.hunks) :
    h.lines.Sublist (splitLinesL s.toList) := by
  unfold parse_diff parseL at hf
  obtain ⟨g, hg, hgf⟩ := List.mem_map.mp hf
  have hh' : h ∈ g.hunks := by
    rw [← hgf] at hh
    exact hh
  have hsub := parseLoop_hunks_sub (splitLinesL s.toList) false none [] []
    (fun f hf0 => by cases hf0) g hg
  rcases hsub with hmem | hsub
  · exact absurd hmem (List.not_mem_nil _)
  · simpa using hsub h hh'

/-- Witness for `c6_amended` at the file parsed from `c5Input`. -/
theorem c6_amended_witness :
    (c6WitnessFile ∈ parse_diff c5Input
        ∧ (⟨1, 1, ["+z".toList]⟩ : Hunk) ∈ c6WitnessFile.hunks)
      ∧ (Hunk.lines ⟨1, 1, ["+z".toList]⟩).Sublist (splitLinesL c5Input.toList) :=
  ⟨⟨by decide, by decide⟩,
    c6_amended c5Input c6WitnessFile ⟨1, 1, ["+z".toList]⟩ (by decide) (by decide)⟩

/-- Claim C7 counterexample: re-parsing a produced file's raw diff text
yields no file entries at all (the retained text does not contain the
`diff --git` header line), so it does not reproduce the file's one-hunk
structure. -/
theorem c7_counterexample :
    (parse_diff c7Input).map (fun fd => parseL fd.diff) = [[]]
      ∧ (parse_diff c7Input).map (fun fd => fd.hunks.length) = [1] := by
  decide

/-- Claim C7 (amended): re-parsing is idempotent once the dropped header
material is restored: for every file section the parser produced, parsing
any matching `diff --git` header line for its path, followed by one
placeholder line (consumed by the parser's skip after the header),
followed by the file's retained diff lines, rebuilds exactly that file
section — same path, same retained lines, same hunk structure. -/
theorem c7_amended (s : String) (f : FileState) (hdr dummy : Line)
    (hf : f ∈ parseStates s) (hh : fileHeaderMatch hdr = some f.file_path) :
    parseLoop (hdr :: dummy :: f.diffLines) false none [] = [f] := by
  unfold parseStates at hf
  have hsr : selfReplay f := parseLoop_selfReplay (splitLinesL s.toList) false none []
    (fun g hg => absurd hg (List.not_mem_nil g)) (fun g hg => by cases hg) f hf
  simp only [parseLoop, hh, closeCur]
  rw [parseLoop_replay f.diffLines ⟨f.file_path, [], []⟩ hsr.2, hsr.1]

/-- Witness for `c7_amended`: restoring a header plus a placeholder line
in front of the retained lines reproduces the section exactly. -/
theorem c7_amended_witness :
    (c7WitnessState ∈ parseStates c5Input
        ∧ fileHeaderMatch c5Hdr = some c7WitnessState.file_path)
      ∧ parseLoop (c5Hdr :: "DUMMY".toList :: c7WitnessState.diffLines) false none []
          = [c7WitnessState] :=
  ⟨⟨by decide, by decide⟩,
    c7_amended c5Input c7WitnessState c5Hdr "DUMMY".toList (by decide) (by decide)⟩

/-- Claim C8 counterexample: in `@pr-review-bot-admin restart` the
mention token occurs only inside the larger token
`@pr-review-bot-admin`, never as a whole whitespace-delimited token, yet
`parse_comment` recognizes a command (the substring after the occurrence):
the claim's whole-token condition does not govern the code. -/
theorem c8_counterexample :
    parse_comment "@pr-review-bot-admin restart".toList
        = some ("-admin".toList, "restart".toList)
      ∧ (splitWS "@pr-review-bot-admin restart".toList).contains BOT = false := by
  decide

/-- Claim C8 (amended): a command is recognized whenever the mention
occurs as a substring of the body; the stripped body's lines are scanned
top to bottom and the first line whose text after the first mention
occurrence contains at least one whitespace token wins, giving
`command = first token` and `args = remaining tokens joined by single
spaces`; a line whose mention is followed by no token contributes nothing
but scanning continues; an empty body or one without the mention yields
no command. -/
theorem c8_amended (body : Line) :
    parse_comment body
      = if body = [] || (firstOccur BOT body).isNone then none
        else (splitLinesL (strip body)).findSome? lineCommand := by
  unfold parse_comment
  by_cases h : (body = [] || (firstOccur BOT body).isNone) = true
  · simp [h]
  · simp only [h, Bool.false_eq_true, if_false, if_neg]
    exact scanLines_findSome _

/-- Claim C9: a file is skipped entirely — it contributes no comment and
causes no model call (the instrumentation list of invoked filenames is
unchanged) — whenever `exclude_paths` is nonempty and the path starts
with an excluded prefix, or `include_paths` is nonempty and the path
starts with no included prefix.  The exclude condition alone suffices
with arbitrary `include_paths`, so exclusion wins regardless of include
settings. -/
theorem c9_path_filter (ai : AIOracle) (cfg : RepoConfig) (fc : FileDiff)
    (rest : List FileDiff)
    (h : pathExcluded cfg fc.file_path = true ∨ pathNotIncluded cfg fc.file_path = true) :
    processFiles ai cfg (fc :: rest) = processFiles ai cfg rest := by
  rcases h with h | h
  · simp [processFiles, h]
  · by_cases he : pathExcluded cfg fc.file_path <;> simp [processFiles, he, h]

/-- Witness for `c9_path_filter`: `src/docs/readme.md` under
`exclude_paths = ["src/docs"]` is skipped although `include_paths`
matches it. -/
theorem c9_path_filter_witness :
    (pathExcluded c9Config c9File.file_path = true
        ∨ pathNotIncluded c9Config c9File.file_path = true)
      ∧ processFiles okOracle c9Config [c9File] = processFiles okOracle c9Config [] :=
  ⟨Or.inl (by decide),
    c9_path_filter okOracle c9Config c9File [] (Or.inl (by decide))⟩

/-- Claim C3 counterexample: with a model oracle that fails on the only
file, the run still submits a review containing a finding for that file —
the fallback body produced by `generate_review_comment`'s `except`
branch — contradicting "that file contributes no ReviewFinding to the
submitted review". -/
theorem c3_counterexample :
    review_pull_request (.ok c3Input.toList)
        (fun _ _ _ _ => .error "boom".toList)
        (fun _ => .ok ())
        {}
      = ⟨.submitted
          [⟨"a.py".toList, 1, "[AI Review Failed for a.py: boom]".toList⟩], none⟩ := by
  decide

/-- Claim C3 (amended): a per-file model failure is caught (the oracle's
error never escapes), processing of the remaining files continues, but
instead of contributing nothing the failed file contributes a finding
whose body is the fallback text `[AI Review Failed for <file>: <error>]`
whenever a position exists for that file. -/
theorem c3_failure_contributes (ai : AIOracle) (cfg : RepoConfig) (fc : FileDiff)
    (rest : List FileDiff) (e : Line) (pos : Nat)
    (hna : pathExcluded cfg fc.file_path = false)
    (hnb : pathNotIncluded cfg fc.file_path = false)
    (hai : ai fc.diff fc.file_path cfg.custom_prompt cfg.review_language = .error e)
    (hpos : findPosition fc.hunks = some pos) :
    processFiles ai cfg (fc :: rest)
      = (⟨fc.file_path, pos, aiFailureBody fc.file_path e⟩
            :: (processFiles ai cfg rest).1,
          fc.file_path :: (processFiles ai cfg rest).2) := by
  have hbody : generate_review_comment ai fc.diff fc.file_path
      cfg.custom_prompt cfg.review_language = aiFailureBody fc.file_path e := by
    simp [generate_review_comment, hai]
  have hne := aiFailureBody_props fc.file_path e
  simp [processFiles, hna, hnb, hbody, hpos, hne.1, hne.2]

/-- Witness for `c3_failure_contributes` at the file of `c3Input`. -/
theorem c3_failure_contributes_witness :
    (pathExcluded {} c3File.file_path = false
        ∧ pathNotIncluded {} c3File.file_path = false
        ∧ failOracle c3File.diff c3File.file_path
            (RepoConfig.custom_prompt {}) (RepoConfig.review_language {})
            = .error "boom".toList
        ∧ findPosition c3File.hunks = some 1)
      ∧ processFiles failOracle {} [c3File]
          = (⟨c3File.file_path, 1, aiFailureBody c3File.file_path "boom".toList⟩
                :: (processFiles failOracle {} []).1,
              c3File.file_path :: (processFiles failOracle {} []).2) :=
  ⟨⟨by decide, by decide, rfl, by decide⟩,
    c3_failure_contributes failOracle {} c3File [] "boom".toList 1
      (by decide) (by decide) rfl (by decide)⟩

/-- Claim C10: the orchestrator coroutine is modelled as a total function
into `RunResult` — the `try/except Exception` wrapper converts every
collaborator failure into a logged, normally returned result.  The
theorem adds the submission discipline: a diff-retrieval failure (which
occurs before the submission call) yields no submission at all, and a
failure of the final submission call itself is also caught and returned
normally, recorded as a failed submission. -/
theorem c10_no_propagation (g : Except Line Line) (ai : AIOracle)
    (post : List ReviewComment → Except Line Unit) (cfg : RepoConfig) :
    (∀ e, g = .error e →
        review_pull_request g ai post cfg = ⟨.notSubmitted, some e⟩)
      ∧ (∀ d e, g = .ok d → d ≠ [] →
          (processFiles ai cfg (parseL d)).1 ≠ [] →
          post (processFiles ai cfg (parseL d)).1 = .error e →
          review_pull_request g ai post cfg
            = ⟨.submitFailed (processFiles ai cfg (parseL d)).1, some e⟩) := by
  constructor
  · intro e he
    subst he
    rfl
  · intro d e hg hd hcs hpost
    subst hg
    simp [review_pull_request, hd, hcs, hpost]

/-- Witness for `c10_no_propagation`: a failing diff retrieval returns
normally with no submission, applied at a concrete error. -/
theorem c10_no_propagation_witness :
    ((.error "net down".toList : Except Line Line) = .error "net down".toList)
      ∧ review_pull_request (.error "net down".toList) okOracle
          (fun _ => .ok ()) {}
        = ⟨.notSubmitted, some "net down".toList⟩ :=
  ⟨rfl,
    (c10_no_propagation (.error "net down".toList) okOracle (fun _ => .ok ()) {}).1
      "net down".toList rfl⟩
